import Mathlib

/-!
Shallow embedding of the core pipeline of `src/app.py` (MultiWave console):
the schema normalizers `load_universe` and `load_weights`, and the
wave-view builder `build_wave_view`.

Modelling conventions:
* A pandas DataFrame cell is a `Cell`: a string, a rational number (floats
  are modelled with exact rationals), or a missing value (NaN/None).
* A raw input table (`RawTable`) is a list of column names plus rows given
  as lists of cells aligned with the columns; a cell is looked up by the
  first column with the matching name (CSV ingestion never produces
  duplicate column names, pandas mangles them).
* The canonical tables produced by the normalizers are structured rows
  (`URow` for the universe, `WRow` for the weights); extra raw columns
  beyond the canonical fields are carried along by pandas but never read
  by the core pipeline, so they are not modelled.
* Row order inside tables is tracked faithfully where the code fixes it;
  the one place pandas leaves order underspecified is the order of
  equal-weight rows after `sort_values` (numpy quicksort is unstable), so
  no theorem below depends on tie order.
-/

namespace MultiWave

/-- One DataFrame cell: a string, a numeric value, or NaN/None. -/
inductive Cell where
  | str (s : String)
  | num (q : ℚ)
  | missing
deriving DecidableEq

/-- A raw table: column headers plus rows of cells aligned with them. -/
structure RawTable where
  cols : List String
  rows : List (List Cell)
deriving DecidableEq

instance {ε α : Type} [DecidableEq ε] [DecidableEq α] :
    DecidableEq (Except ε α) := fun x y =>
  match x, y with
  | .ok a, .ok b =>
      if h : a = b then isTrue (by rw [h])
      else isFalse (by intro he; cases he; exact h rfl)
  | .ok _, .error _ => isFalse (by intro h; cases h)
  | .error _, .ok _ => isFalse (by intro h; cases h)
  | .error e, .error f =>
      if h : e = f then isTrue (by rw [h])
      else isFalse (by intro he; cases he; exact h rfl)

/-- Python `str(cell)` as applied by `.astype(str)`: strings unchanged,
NaN/None becomes the string "nan". -/
def cellStr : Cell → String
  | .str s => s
  | .num q => toString q
  | .missing => "nan"

/-- Is the cell NaN/None? -/
def Cell.isMissing : Cell → Bool
  | .missing => true
  | _ => false

/-- Cell of `row` in column `c` (first column with that name). -/
def rowCell (cols : List String) (row : List Cell) (c : String) : Cell :=
  match cols.findIdx? (fun x => x == c) with
  | some i => row.getD i Cell.missing
  | none => Cell.missing

/-- Python `str.strip()`: drop whitespace at both ends. Implemented over
the character list so it is fully evaluable. -/
def pyStrip (s : String) : String :=
  ⟨((s.data.dropWhile Char.isWhitespace).reverse.dropWhile
      Char.isWhitespace).reverse⟩

/-- Python `str.upper()` on ASCII data. -/
def pyUpper (s : String) : String :=
  ⟨s.data.map Char.toUpper⟩

/-- Split a character list on every occurrence of a separator. -/
def splitChars (sep : Char) : List Char → List (List Char)
  | [] => [[]]
  | c :: rest =>
      let r := splitChars sep rest
      if c = sep then [] :: r
      else
        match r with
        | h :: t => (c :: h) :: t
        | [] => [[c]]

/-- Value of a digit character list (helper for `parseNumQ`). -/
def digitsVal (l : List Char) : ℕ :=
  l.foldl (fun n c => 10 * n + (c.toNat - 48)) 0

/-- Decimal parser modelling `pd.to_numeric(..., errors="coerce")` on a
string: optional sign, digits, optional fractional part; anything else is
unparseable (None). -/
def parseNumQ (s : String) : Option ℚ :=
  let cs := (pyStrip s).data
  let signed : Bool × List Char :=
    match cs with
    | '-' :: rest => (true, rest)
    | '+' :: rest => (false, rest)
    | _ => (false, cs)
  let sign : ℚ := if signed.1 then -1 else 1
  match splitChars '.' signed.2 with
  | [ip] =>
      if ip.length > 0 && ip.all Char.isDigit then
        some (sign * (digitsVal ip : ℚ))
      else none
  | [ip, fp] =>
      if (ip.length + fp.length > 0) && ip.all Char.isDigit
          && fp.all Char.isDigit then
        some (sign * ((digitsVal ip : ℚ) + (digitsVal fp : ℚ) / (10 ^ fp.length)))
      else none
  | _ => none

/-- `pd.to_numeric(cell, errors="coerce")`: numbers pass through, strings
are parsed, NaN/unparseable give None (NaN). -/
def cellToNum : Cell → Option ℚ
  | .num q => some q
  | .str s => parseNumQ s
  | .missing => none

-- ------------------------------------------------------------------
-- load_universe (src/app.py lines 21-87)
-- ------------------------------------------------------------------

/-- The ticker column candidates of `load_universe`, in search order. -/
def ticker_cols : List String := ["Ticker", "Symbol", "ticker"]

/-- The sector column candidates of `load_universe`, in search order. -/
def sector_candidates : List String :=
  ["Sector", "GICS Sector", "Morningstar Sector", "Industry", "sector"]

/-- The company column candidates of `load_universe`, in search order. -/
def name_candidates : List String :=
  ["Company", "Name", "Security Name", "Long Name", "company"]

/-- The first candidate that occurs among the columns (exact string
match), as in the `for c in ...: if c in df.columns` loops. -/
def findAlias (cands : List String) (cols : List String) : Option String :=
  cands.find? (fun c => cols.contains c)

/-- Python `str.lower()` on ASCII data (used only by the spec-modelled
resolver below). -/
def pyLower (s : String) : String :=
  ⟨s.data.map Char.toLower⟩

/-- Modelled from the spec (for comparison with `findAlias`, not from the
source): the claimed case-insensitive alias resolution, matching the raw
column names case-insensitively against a lowercase alias set in priority
order. -/
def findAliasCaseInsensitive (aliases : List String) (cols : List String) :
    Option String :=
  aliases.findSome? (fun a => cols.find? (fun c => pyLower c == a))

/-- Canonical universe row after `load_universe`: display ticker, sector,
company (each possibly missing) and the uppercase-trimmed join key. -/
structure URow where
  ticker : Cell
  sector : Cell
  company : Cell
  ticker_key : String
deriving DecidableEq

/-- Error raised when no ticker column is found: the message lists the
accepted candidates and the columns actually present. -/
structure UnivError where
  lookedFor : List String
  found : List String
deriving DecidableEq

/-- One canonical universe row read from a raw row, given the resolved
ticker / sector / company columns; absent sector or company columns are
backfilled with all-missing values (`df["Sector"] = None`). -/
def univRow (cols : List String) (tc : String) (sc nc : Option String)
    (row : List Cell) : URow :=
  let tcell := rowCell cols row tc
  { ticker := tcell
    sector := match sc with
      | some c => rowCell cols row c
      | none => Cell.missing
    company := match nc with
      | some c => rowCell cols row c
      | none => Cell.missing
    ticker_key := pyUpper (pyStrip (cellStr tcell)) }

/-- `load_universe` without the file I/O: resolve the ticker column (error
if none), optionally resolve sector and company columns, rename to the
canonical names and add the uppercase-trimmed `Ticker_key`. -/
def load_universe (t : RawTable) : Except UnivError (List URow) :=
  match findAlias ticker_cols t.cols with
  | none => .error ⟨ticker_cols, t.cols⟩
  | some tc =>
      .ok (t.rows.map (univRow t.cols tc (findAlias sector_candidates t.cols)
        (findAlias name_candidates t.cols)))

-- ------------------------------------------------------------------
-- load_weights (src/app.py lines 91-117)
-- ------------------------------------------------------------------

/-- Canonical weights row after `load_weights`: trimmed wave, upper-trimmed
ticker, positive numeric weight. -/
structure WRow where
  wave : String
  ticker : String
  weight : ℚ
deriving DecidableEq

/-- Error raised when required weight columns are missing: the message
lists the required columns, the missing ones and the columns found. -/
structure WeightsError where
  required : List String
  missing : List String
  found : List String
deriving DecidableEq

/-- The three required weights columns. -/
def requiredCols : List String := ["Wave", "Ticker", "Weight"]

/-- Required columns absent after stripping whitespace from headers. -/
def missingCols (t : RawTable) : List String :=
  requiredCols.filter (fun c => !((t.cols.map pyStrip).contains c))

/-- Row normalization of `load_weights`: `Wave` stringified and trimmed,
`Ticker` stringified, trimmed and uppercased, `Weight` coerced to a
number with NaN/unparseable replaced by 0 (`fillna(0.0)`). -/
def coerceWRow (cols : List String) (row : List Cell) : WRow :=
  { wave := pyStrip (cellStr (rowCell cols row "Wave"))
    ticker := pyUpper (pyStrip (cellStr (rowCell cols row "Ticker")))
    weight := (cellToNum (rowCell cols row "Weight")).getD 0 }

/-- `load_weights` without the file I/O: strip header whitespace, fail if
any of `Wave`, `Ticker`, `Weight` is missing, normalize the rows and drop
rows whose weight is not strictly positive. -/
def load_weights (t : RawTable) : Except WeightsError (List WRow) :=
  if missingCols t = [] then
    .ok ((t.rows.map (coerceWRow (t.cols.map pyStrip))).filter
      (fun r => decide (0 < r.weight)))
  else
    .error ⟨requiredCols, missingCols t, t.cols.map pyStrip⟩

-- ------------------------------------------------------------------
-- build_wave_view (src/app.py lines 123-176)
-- ------------------------------------------------------------------

/-- Row of the merged table `w.merge(universe, left_on="Ticker",
right_on="Ticker_key", how="left")`, restricted to the columns the rest
of the pipeline reads (`Ticker` from the weights side, the renamed
`WaveWeight`, and the universe metadata `Company` / `Sector`; the other
merged columns are never read again). -/
structure MRow where
  ticker : String
  waveweight : ℚ
  company : Cell
  sector : Cell
deriving DecidableEq

/-- Holdings row: the columns selected at src/app.py lines 155-162. -/
structure HRow where
  ticker : String
  company : Cell
  sector : Cell
  waveweight : ℚ
deriving DecidableEq

/-- Sector allocation row (`Sector`, `Weight`). -/
structure SRow where
  sector : Cell
  weight : ℚ
deriving DecidableEq

/-- A value returned by `build_wave_view`: an empty `pd.DataFrame()`, a
holdings-shaped table, or a sector-allocation-shaped table. The Python
function returns a tuple whose arity depends on the input, modelled here
as a list of tables. -/
inductive PyTable where
  | emptyDF
  | hold (rows : List HRow)
  | sect (rows : List SRow)
deriving DecidableEq

/-- `weights[weights["Wave"] == wave_name]`: exact equality on the stored
wave value. -/
def filterWave (ws : List WRow) (n : String) : List WRow :=
  ws.filter (fun r => r.wave == n)

/-- Universe rows matching a weights-side ticker on the join key
(`Ticker` = `Ticker_key`). -/
def univMatches (u : List URow) (t : String) : List URow :=
  u.filter (fun x => x.ticker_key == t)

/-- The merged rows a single weight row contributes under the left join:
one row per matching universe row, in universe order, or a single row
with missing metadata when no universe row matches. -/
def leftRows (u : List URow) (r : WRow) : List MRow :=
  match univMatches u r.ticker with
  | [] => [⟨r.ticker, r.weight, Cell.missing, Cell.missing⟩]
  | x :: xs => (x :: xs).map (fun y => ⟨r.ticker, r.weight, y.company, y.sector⟩)

/-- Concatenation of a list-valued map (left-join row expansion). -/
def concatMap (f : α → List β) : List α → List β
  | [] => []
  | a :: l => f a ++ concatMap f l

/-- The left merge of src/app.py lines 134-140: left row order preserved,
each left row expanded by its universe matches. -/
def mergeLeft (u : List URow) (w : List WRow) : List MRow :=
  concatMap (leftRows u) w

/-- Insert into a sorted list, before the first element `le a b` fails on
(stable insertion). -/
def insertSortedBy (le : α → α → Bool) (a : α) : List α → List α
  | [] => [a]
  | b :: l => if le a b then a :: b :: l else b :: insertSortedBy le a l

/-- Stable insertion sort. -/
def sortBy (le : α → α → Bool) : List α → List α
  | [] => []
  | a :: l => insertSortedBy le a (sortBy le l)

/-- Lexicographic comparison of character lists by code point. -/
def charListLe : List Char → List Char → Bool
  | [], _ => true
  | _ :: _, [] => false
  | a :: as, b :: bs =>
      if a = b then charListLe as bs else decide (a.toNat < b.toNat)

/-- Ascending string order used by pandas for group keys (lexicographic
by code point, as Python compares strings). -/
def strLe (a b : String) : Bool := charListLe a.data b.data

/-- pandas `GroupBy.first`: the first non-null value of the group, null
if the whole group is null. -/
def firstCell (l : List Cell) : Cell :=
  (l.filter (fun c => !c.isMissing)).headD Cell.missing

/-- Aggregated row of `merged.groupby("Ticker",
as_index=False).agg({"WaveWeight": "sum", "Company": "first",
"Sector": "first"})` for one group key. -/
def aggTicker (merged : List MRow) (t : String) : HRow :=
  let g := merged.filter (fun m => m.ticker == t)
  { ticker := t
    company := firstCell (g.map (·.company))
    sector := firstCell (g.map (·.sector))
    waveweight := (g.map (·.waveweight)).sum }

/-- The deduplicated table of src/app.py line 152: one aggregated row per
distinct ticker, keys sorted ascending (pandas groupby sorts keys). -/
def dedupByTicker (merged : List MRow) : List HRow :=
  (sortBy strLe ((merged.map (·.ticker)).dedup)).map (aggTicker merged)

/-- Aggregated sector-allocation row for one sector group key. -/
def aggSector (dedup : List HRow) (s : Cell) : SRow :=
  { sector := s
    weight := ((dedup.filter (fun h => h.sector == s)).map (·.waveweight)).sum }

/-- Sector allocation of src/app.py lines 167-174: group the deduplicated
rows by `Sector` with `dropna=False` (missing sector is its own bucket),
sum `WaveWeight`, and sort descending by the summed weight. The interim
order of the group keys only affects the order of equal-weight buckets,
which pandas leaves unspecified (unstable quicksort). -/
def sectorAlloc (dedup : List HRow) : List SRow :=
  sortBy (fun a b => decide (b.weight ≤ a.weight))
    (((dedup.map (·.sector)).dedup).map (aggSector dedup))

/-- Holdings for the selected wave: merged, deduplicated, sorted
descending by `WaveWeight` (empty when the wave has no rows). -/
def waveHoldings (u : List URow) (ws : List WRow) (n : String) : List HRow :=
  sortBy (fun a b => decide (b.waveweight ≤ a.waveweight))
    (dedupByTicker (mergeLeft u (filterWave ws n)))

/-- Sector allocation for the selected wave. Note that the Python guard
`if "Sector" in dedup.columns` is always true here: `load_universe`
backfills a `Sector` column when none exists, so every merged table has
one. -/
def waveSectorAlloc (u : List URow) (ws : List WRow) (n : String) : List SRow :=
  sectorAlloc (dedupByTicker (mergeLeft u (filterWave ws n)))

/-- `build_wave_view`: returns `(pd.DataFrame(), pd.DataFrame())` when the
wave filter is empty, and `(holdings, top10, sector_alloc)` otherwise,
where `top10 = holdings.head(10)`. The differing tuple arity is modelled
by the length of the returned list. -/
def build_wave_view (u : List URow) (ws : List WRow) (n : String) :
    List PyTable :=
  if filterWave ws n = [] then
    [PyTable.emptyDF, PyTable.emptyDF]
  else
    [PyTable.hold (waveHoldings u ws n),
     PyTable.hold ((waveHoldings u ws n).take 10),
     PyTable.sect (waveSectorAlloc u ws n)]

-- sums used in the conservation statements

/-- Sum of the `Weight` column of a weights table. -/
def wSum (w : List WRow) : ℚ := (w.map (·.weight)).sum

/-- Sum of the `WaveWeight` column of a merged table. -/
def mSum (m : List MRow) : ℚ := (m.map (·.waveweight)).sum

/-- Sum of the `WaveWeight` column of a holdings table. -/
def hSum (h : List HRow) : ℚ := (h.map (·.waveweight)).sum

/-- Sum of the `Weight` column of a sector allocation table. -/
def sSum (s : List SRow) : ℚ := (s.map (·.weight)).sum

-- ------------------------------------------------------------------
-- Basic lemmas about the building blocks
-- ------------------------------------------------------------------

-- Rational arithmetic is kept unfoldable so that concrete instances of
-- the pipeline evaluate with `decide`; kernel checking is unaffected.
attribute [local semireducible] Rat.add Rat.mul Rat.sub Rat.inv

theorem insertSortedBy_perm (le : α → α → Bool) (a : α) :
    ∀ l : List α, (insertSortedBy le a l).Perm (a :: l)
  | [] => List.Perm.refl _
  | b :: l => by
      rw [insertSortedBy]
      by_cases h : le a b = true
      · simp [h]
      · simp only [h, if_false]
        exact ((insertSortedBy_perm le a l).cons b).trans (List.Perm.swap a b l)

theorem sortBy_perm (le : α → α → Bool) :
    ∀ l : List α, (sortBy le l).Perm l
  | [] => List.Perm.refl _
  | a :: l =>
      (insertSortedBy_perm le a (sortBy le l)).trans ((sortBy_perm le l).cons a)

theorem mem_concatMap {f : α → List β} {b : β} :
    ∀ {l : List α}, b ∈ concatMap f l ↔ ∃ a ∈ l, b ∈ f a
  | [] => by simp [concatMap]
  | a :: l => by
      simp only [concatMap, List.mem_append, mem_concatMap, List.mem_cons]
      constructor
      · rintro (h | ⟨a₂, ha₂, hb⟩)
        · exact ⟨a, Or.inl rfl, h⟩
        · exact ⟨a₂, Or.inr ha₂, hb⟩
      · rintro ⟨a₂, ha₂ | ha₂, hb⟩
        · exact Or.inl (ha₂ ▸ hb)
        · exact Or.inr ⟨a₂, ha₂, hb⟩

theorem concatMap_sum (f : α → List β) (wt : β → ℚ) :
    ∀ l : List α,
      ((concatMap f l).map wt).sum = (l.map (fun a => ((f a).map wt).sum)).sum
  | [] => rfl
  | a :: l => by
      simp only [concatMap, List.map_append, List.sum_append, List.map_cons,
        List.sum_cons, concatMap_sum f wt l]

/-- Summing a distributed quantity over each group, when the group keys
are distinct and cover all rows, adds up to the plain row sum. -/
theorem if_key_sum {κ : Type} [BEq κ] [LawfulBEq κ] (x : κ) (c : ℚ) (g : κ → ℚ) :
    ∀ keys : List κ, keys.Nodup → x ∈ keys →
      (keys.map (fun k => if x == k then c + g k else g k)).sum
        = c + (keys.map g).sum
  | [], _, hx => by cases hx
  | k :: keys, hnd, hx => by
      rcases List.nodup_cons.mp hnd with ⟨hk, hnd₂⟩
      by_cases hxk : x = k
      · subst hxk
        have hrest : ∀ k₂ ∈ keys, (if x == k₂ then c + g k₂ else g k₂) = g k₂ := by
          intro k₂ hk₂
          have : ¬(x == k₂) = true := by
            simp only [beq_iff_eq]
            intro he
            exact hk (he ▸ hk₂)
          simp [this]
        rw [List.map_cons, List.map_congr_left hrest, List.sum_cons,
          if_pos (beq_self_eq_true x)]
        simp only [List.map_cons, List.sum_cons]
        ring
      · have hx₂ : x ∈ keys := by
          rcases List.mem_cons.mp hx with h | h
          · exact absurd h hxk
          · exact h
        have hne : ¬(x == k) = true := by simp [beq_iff_eq, hxk]
        rw [List.map_cons, List.sum_cons, if_neg hne,
          if_key_sum x c g keys hnd₂ hx₂]
        simp only [List.map_cons, List.sum_cons]
        ring

/-- Partition lemma: summing a weight over the fibers of a key function,
one fiber per distinct key, recovers the total sum. -/
theorem sum_fiber {α κ : Type} [BEq κ] [LawfulBEq κ] (key : α → κ) (wt : α → ℚ) :
    ∀ (l : List α) (keys : List κ), keys.Nodup → (∀ a ∈ l, key a ∈ keys) →
      (keys.map (fun k => ((l.filter (fun a => key a == k)).map wt).sum)).sum
        = (l.map wt).sum
  | [], keys, _, _ => by
      simp only [List.filter_nil, List.map_nil, List.sum_nil]
      exact List.sum_eq_zero (by simp)
  | a :: l, keys, hnd, hcov => by
      have hmem : key a ∈ keys := hcov a (List.mem_cons_self a l)
      have hcov₂ : ∀ x ∈ l, key x ∈ keys := fun x hx =>
        hcov x (List.mem_cons_of_mem a hx)
      have hstep : ∀ k ∈ keys,
          (((a :: l).filter (fun x => key x == k)).map wt).sum
            = if key a == k then
                wt a + ((l.filter (fun x => key x == k)).map wt).sum
              else ((l.filter (fun x => key x == k)).map wt).sum := by
        intro k _
        by_cases h : (key a == k) = true
        · simp [List.filter_cons, h]
        · simp [List.filter_cons, h]
      rw [List.map_congr_left hstep,
        if_key_sum (key a) (wt a)
          (fun k => ((l.filter (fun x => key x == k)).map wt).sum) keys hnd hmem,
        sum_fiber key wt l keys hnd hcov₂]
      simp

-- lemmas about the left join

theorem mem_leftRows {u : List URow} {r : WRow} {m : MRow}
    (h : m ∈ leftRows u r) : m.ticker = r.ticker ∧ m.waveweight = r.weight := by
  unfold leftRows at h
  cases hm : univMatches u r.ticker with
  | nil =>
      rw [hm] at h
      rcases List.mem_singleton.mp h with rfl
      exact ⟨rfl, rfl⟩
  | cons x xs =>
      rw [hm] at h
      rcases List.mem_map.mp h with ⟨y, _, rfl⟩
      exact ⟨rfl, rfl⟩

theorem leftRows_ne_nil (u : List URow) (r : WRow) : leftRows u r ≠ [] := by
  unfold leftRows
  cases hm : univMatches u r.ticker with
  | nil => simp
  | cons x xs => simp

theorem leftRows_no_match {u : List URow} {r : WRow}
    (h : univMatches u r.ticker = []) :
    leftRows u r = [⟨r.ticker, r.weight, Cell.missing, Cell.missing⟩] := by
  unfold leftRows
  rw [h]

theorem leftRows_sum {u : List URow} {r : WRow}
    (h : (univMatches u r.ticker).length ≤ 1) :
    ((leftRows u r).map (·.waveweight)).sum = r.weight := by
  unfold leftRows
  cases hm : univMatches u r.ticker with
  | nil => simp
  | cons x xs =>
      rw [hm] at h
      cases xs with
      | nil => simp
      | cons y ys => simp at h

/-- With at most one universe match per ticker, the left join neither
drops nor duplicates weight: the merged `WaveWeight` total equals the
weight total of the joined rows. -/
theorem mergeLeft_sum {u : List URow} :
    ∀ {w : List WRow}, (∀ r ∈ w, (univMatches u r.ticker).length ≤ 1) →
      mSum (mergeLeft u w) = wSum w
  | [], _ => rfl
  | r :: w, h => by
      have hr := h r (List.mem_cons_self r w)
      have hw : ∀ r₂ ∈ w, (univMatches u r₂.ticker).length ≤ 1 := fun r₂ h₂ =>
        h r₂ (List.mem_cons_of_mem r h₂)
      unfold mSum mergeLeft concatMap
      rw [List.map_append, List.sum_append, leftRows_sum hr]
      have := mergeLeft_sum (u := u) hw
      unfold mSum mergeLeft at this
      rw [this]
      simp [wSum]

theorem mem_mergeLeft_tickers {u : List URow} {w : List WRow} {t : String} :
    t ∈ (mergeLeft u w).map (·.ticker) ↔ t ∈ w.map (·.ticker) := by
  constructor
  · intro h
    rcases List.mem_map.mp h with ⟨m, hm, rfl⟩
    rcases mem_concatMap.mp hm with ⟨r, hr, hmr⟩
    exact List.mem_map.mpr ⟨r, hr, ((mem_leftRows hmr).1).symm⟩
  · intro h
    rcases List.mem_map.mp h with ⟨r, hr, rfl⟩
    rcases List.exists_mem_of_ne_nil _ (leftRows_ne_nil u r) with ⟨m, hm⟩
    exact List.mem_map.mpr
      ⟨m, mem_concatMap.mpr ⟨r, hr, hm⟩, (mem_leftRows hm).1⟩

-- lemmas about the groupby dedup

theorem dedup_map_ticker (m : List MRow) :
    (dedupByTicker m).map (·.ticker)
      = sortBy strLe ((m.map (·.ticker)).dedup) := by
  unfold dedupByTicker
  rw [List.map_map]
  exact List.map_id _ ▸ rfl

theorem dedup_keys_nodup (m : List MRow) :
    (sortBy strLe ((m.map (·.ticker)).dedup)).Nodup :=
  (sortBy_perm strLe _).nodup_iff.mpr (List.nodup_dedup _)

theorem dedup_keys_cover {m : List MRow} :
    ∀ x ∈ m, x.ticker ∈ sortBy strLe ((m.map (·.ticker)).dedup) := by
  intro x hx
  exact (sortBy_perm strLe _).mem_iff.mpr
    (List.mem_dedup.mpr (List.mem_map_of_mem _ hx))

/-- The groupby-sum dedup conserves the `WaveWeight` total. -/
theorem hSum_dedupByTicker (m : List MRow) :
    hSum (dedupByTicker m) = mSum m := by
  unfold hSum dedupByTicker mSum
  rw [List.map_map]
  exact sum_fiber (fun x : MRow => x.ticker) (fun x => x.waveweight) m _
    (dedup_keys_nodup m) (fun x hx => dedup_keys_cover x hx)

/-- Grouping the deduplicated rows by sector conserves the total. -/
theorem sSum_sectorAlloc (d : List HRow) : sSum (sectorAlloc d) = hSum d := by
  unfold sSum sectorAlloc
  have hperm :=
    ((sortBy_perm (fun a b : SRow => decide (b.weight ≤ a.weight))
      (((d.map (·.sector)).dedup).map (aggSector d))).map (fun x : SRow => x.weight)).sum_eq
  rw [hperm, List.map_map]
  exact sum_fiber (fun x : HRow => x.sector) (fun x => x.waveweight) d _
    ((List.nodup_dedup _)) (fun x hx => List.mem_dedup.mpr (List.mem_map_of_mem _ hx))

theorem mergeLeft_cons (u : List URow) (r : WRow) (w : List WRow) :
    mergeLeft u (r :: w) = leftRows u r ++ mergeLeft u w := rfl

/-- Filtering the merged table to one ticker is the merge of the weight
rows with that ticker (each left-join chunk is kept or dropped whole,
because all its rows carry the source row ticker). -/
theorem mergeLeft_filter (u : List URow) (t : String) :
    ∀ w : List WRow,
      (mergeLeft u w).filter (fun m => m.ticker == t)
        = mergeLeft u (w.filter (fun r => r.ticker == t))
  | [] => rfl
  | r :: w => by
      rw [mergeLeft_cons, List.filter_append, List.filter_cons]
      by_cases hr : (r.ticker == t) = true
      · have h1 : (leftRows u r).filter (fun m => m.ticker == t) = leftRows u r :=
          List.filter_eq_self.mpr (fun m hm => by
            rw [(mem_leftRows hm).1]; exact hr)
        rw [h1, if_pos hr, mergeLeft_cons, mergeLeft_filter u t w]
      · have h1 : (leftRows u r).filter (fun m => m.ticker == t) = [] :=
          List.filter_eq_nil_iff.mpr (fun m hm => by
            rw [(mem_leftRows hm).1]; exact hr)
        rw [h1, if_neg hr, mergeLeft_filter u t w, List.nil_append]

/-- Merged rows of a ticker with no universe match carry no metadata. -/
theorem mem_mergeLeft_no_match {u : List URow} {w : List WRow} {t : String}
    (hnm : univMatches u t = []) :
    ∀ m ∈ mergeLeft u w, m.ticker = t →
      m.company = Cell.missing ∧ m.sector = Cell.missing := by
  intro m hm ht
  rcases mem_concatMap.mp hm with ⟨r, _, hmr⟩
  have htr : r.ticker = t := (mem_leftRows hmr).1 ▸ ht
  rw [leftRows_no_match (htr ▸ hnm)] at hmr
  rcases List.mem_singleton.mp hmr with rfl
  exact ⟨rfl, rfl⟩

theorem firstCell_eq_missing {l : List Cell} (h : ∀ c ∈ l, c = Cell.missing) :
    firstCell l = Cell.missing := by
  unfold firstCell
  have he : l.filter (fun c => !c.isMissing) = [] :=
    List.filter_eq_nil_iff.mpr (fun c hc => by rw [h c hc]; simp [Cell.isMissing])
  rw [he]
  rfl

-- lemmas about alias resolution

theorem findAlias_split {cands cols : List String} {c : String} :
    findAlias cands cols = some c →
      ∃ l₁ l₂, cands = l₁ ++ c :: l₂ ∧ c ∈ cols ∧ ∀ x ∈ l₁, x ∉ cols := by
  induction cands with
  | nil => intro h; cases h
  | cons a rest ih =>
      intro h
      unfold findAlias at h
      by_cases hp : cols.contains a = true
      · rw [List.find?_cons_of_pos _ hp] at h
        rcases Option.some.inj h with rfl
        refine ⟨[], rest, rfl, ?_, by simp⟩
        simpa using hp
      · rw [List.find?_cons_of_neg _ (by simpa using hp)] at h
        rcases ih h with ⟨l₁, l₂, heq, hc, hnone⟩
        refine ⟨a :: l₁, l₂, by rw [heq]; rfl, hc, ?_⟩
        intro x hx
        rcases List.mem_cons.mp hx with rfl | hx₂
        · simpa using hp
        · exact hnone x hx₂

theorem findAlias_none {cands cols : List String}
    (h : findAlias cands cols = none) : ∀ c ∈ cands, c ∉ cols := by
  intro c hc hmem
  have := List.find?_eq_none.mp h c hc
  simp at this
  exact this hmem

-- ------------------------------------------------------------------
-- Claim theorems
-- ------------------------------------------------------------------

/-- C1 (amended): weight conservation through the pipeline holds provided
every ticker of the selected wave matches at most one universe row (in
particular whenever the universe has no duplicate ticker keys): the sum
of `WaveWeight` over the holdings table built for the wave equals the sum
of `Weight` over the normalized weight rows of that wave. Without that
proviso the left join duplicates a weight row once per extra matching
universe row and the holdings total is inflated (see the
counterexample). -/
theorem c1_weight_conservation (u : List URow) (ws : List WRow) (n : String)
    (h : ∀ r ∈ filterWave ws n, (univMatches u r.ticker).length ≤ 1) :
    hSum (waveHoldings u ws n) = wSum (filterWave ws n) := by
  unfold waveHoldings hSum
  have hperm :=
    ((sortBy_perm (fun a b : HRow => decide (b.waveweight ≤ a.waveweight))
      (dedupByTicker (mergeLeft u (filterWave ws n)))).map
        (fun x : HRow => x.waveweight)).sum_eq
  rw [hperm]
  exact (hSum_dedupByTicker _).trans (mergeLeft_sum h)

/-- C1 counterexample: the claim as stated (for every universe) is false.
With a universe holding two rows for the same ticker key — reachable
input, produced by `load_universe` from a raw table with a duplicated
ticker, which the normalizer does not deduplicate — the holdings total
for the wave is 10 while the normalized weights total is 5: the left
join duplicated the single weight row. -/
theorem c1_counterexample :
    load_universe ⟨["Ticker"], [[Cell.str "AAPL"], [Cell.str "AAPL"]]⟩
      = Except.ok [⟨Cell.str "AAPL", Cell.missing, Cell.missing, "AAPL"⟩,
                   ⟨Cell.str "AAPL", Cell.missing, Cell.missing, "AAPL"⟩]
    ∧ load_weights ⟨["Wave", "Ticker", "Weight"],
        [[Cell.str "W1", Cell.str "AAPL", Cell.num 5]]⟩
      = Except.ok [⟨"W1", "AAPL", 5⟩]
    ∧ hSum (waveHoldings
        [⟨Cell.str "AAPL", Cell.missing, Cell.missing, "AAPL"⟩,
         ⟨Cell.str "AAPL", Cell.missing, Cell.missing, "AAPL"⟩]
        [⟨"W1", "AAPL", 5⟩] "W1") = 10
    ∧ wSum (filterWave [⟨"W1", "AAPL", 5⟩] "W1") = 5
    ∧ hSum (waveHoldings
        [⟨Cell.str "AAPL", Cell.missing, Cell.missing, "AAPL"⟩,
         ⟨Cell.str "AAPL", Cell.missing, Cell.missing, "AAPL"⟩]
        [⟨"W1", "AAPL", 5⟩] "W1")
      ≠ wSum (filterWave [⟨"W1", "AAPL", 5⟩] "W1") := by
  refine ⟨by decide, by decide, by decide, by decide, by decide⟩

/-- C1 witness: the spec scenario (wave W1, AAPL twice with weights 3 and
1, MSFT with weight 4, unique universe tickers) satisfies the proviso and
the conservation equation. -/
theorem c1_weight_conservation_witness :
    (∀ r ∈ filterWave [⟨"W1", "AAPL", 3⟩, ⟨"W1", "AAPL", 1⟩, ⟨"W1", "MSFT", 4⟩] "W1",
      (univMatches [⟨Cell.str "AAPL", Cell.str "Tech", Cell.str "Apple", "AAPL"⟩,
        ⟨Cell.str "MSFT", Cell.str "Tech", Cell.str "Microsoft", "MSFT"⟩]
        r.ticker).length ≤ 1)
    ∧ hSum (waveHoldings
        [⟨Cell.str "AAPL", Cell.str "Tech", Cell.str "Apple", "AAPL"⟩,
         ⟨Cell.str "MSFT", Cell.str "Tech", Cell.str "Microsoft", "MSFT"⟩]
        [⟨"W1", "AAPL", 3⟩, ⟨"W1", "AAPL", 1⟩, ⟨"W1", "MSFT", 4⟩] "W1")
      = wSum (filterWave
        [⟨"W1", "AAPL", 3⟩, ⟨"W1", "AAPL", 1⟩, ⟨"W1", "MSFT", 4⟩] "W1") :=
  ⟨by decide, c1_weight_conservation _ _ _ (by decide)⟩

/-- C2 (confirmed): the holdings table has exactly one row per distinct
ticker referenced by the wave: its ticker column is duplicate-free, and a
ticker occurs in it exactly when some normalized weight row of the wave
carries it. (When the wave is empty the holdings component is empty and
the statement is vacuous.) -/
theorem c2_dedupe_invariant (u : List URow) (ws : List WRow) (n : String) :
    ((waveHoldings u ws n).map (·.ticker)).Nodup
    ∧ ∀ t, t ∈ (waveHoldings u ws n).map (·.ticker)
        ↔ t ∈ (filterWave ws n).map (·.ticker) := by
  unfold waveHoldings
  have hperm :=
    (sortBy_perm (fun a b : HRow => decide (b.waveweight ≤ a.waveweight))
      (dedupByTicker (mergeLeft u (filterWave ws n)))).map (fun x : HRow => x.ticker)
  constructor
  · exact hperm.nodup_iff.mpr (dedup_map_ticker _ ▸ dedup_keys_nodup _)
  · intro t
    rw [hperm.mem_iff, dedup_map_ticker, (sortBy_perm strLe _).mem_iff,
      List.mem_dedup]
    exact mem_mergeLeft_tickers

/-- C2 witness: concrete instance of the dedupe invariant on the spec
scenario, with the membership equivalence instantiated at AAPL. -/
theorem c2_dedupe_invariant_witness :
    ((waveHoldings [⟨Cell.str "AAPL", Cell.str "Tech", Cell.str "Apple", "AAPL"⟩]
        [⟨"W1", "AAPL", 3⟩, ⟨"W1", "AAPL", 1⟩] "W1").map (·.ticker)).Nodup
    ∧ ("AAPL" ∈ (waveHoldings [⟨Cell.str "AAPL", Cell.str "Tech", Cell.str "Apple", "AAPL"⟩]
          [⟨"W1", "AAPL", 3⟩, ⟨"W1", "AAPL", 1⟩] "W1").map (·.ticker)
        ↔ "AAPL" ∈ (filterWave [⟨"W1", "AAPL", 3⟩, ⟨"W1", "AAPL", 1⟩] "W1").map (·.ticker)) :=
  ⟨(c2_dedupe_invariant _ _ _).1, (c2_dedupe_invariant _ _ _).2 "AAPL"⟩

/-- C3 (confirmed): a weight row of the selected wave whose ticker matches
no universe row on the join key is still present in the holdings: the
holdings table has a row for its ticker whose company and sector are
unset, and whose weight is the summed weight of the wave rows with that
ticker. -/
theorem c3_left_join_preservation (u : List URow) (ws : List WRow) (n : String)
    (r : WRow) (hr : r ∈ filterWave ws n)
    (hnm : univMatches u r.ticker = []) :
    ∃ h ∈ waveHoldings u ws n,
      h.ticker = r.ticker ∧ h.company = Cell.missing ∧ h.sector = Cell.missing
      ∧ h.waveweight
          = wSum ((filterWave ws n).filter (fun x => x.ticker == r.ticker)) := by
  have hmem : r.ticker ∈ (mergeLeft u (filterWave ws n)).map (·.ticker) :=
    mem_mergeLeft_tickers.mpr (List.mem_map_of_mem _ hr)
  have hkey : r.ticker ∈ sortBy strLe
      (((mergeLeft u (filterWave ws n)).map (·.ticker)).dedup) :=
    (sortBy_perm strLe _).mem_iff.mpr (List.mem_dedup.mpr hmem)
  refine ⟨aggTicker (mergeLeft u (filterWave ws n)) r.ticker, ?_, rfl, ?_, ?_, ?_⟩
  · unfold waveHoldings
    exact (sortBy_perm _ _).mem_iff.mpr (List.mem_map_of_mem _ hkey)
  · exact firstCell_eq_missing (fun c hc => by
      rcases List.mem_map.mp hc with ⟨m, hm, rfl⟩
      exact (mem_mergeLeft_no_match hnm m (List.mem_filter.mp hm).1
        (by simpa using (List.mem_filter.mp hm).2)).1)
  · exact firstCell_eq_missing (fun c hc => by
      rcases List.mem_map.mp hc with ⟨m, hm, rfl⟩
      exact (mem_mergeLeft_no_match hnm m (List.mem_filter.mp hm).1
        (by simpa using (List.mem_filter.mp hm).2)).2)
  · show ((((mergeLeft u (filterWave ws n)).filter
        (fun m => m.ticker == r.ticker)).map (·.waveweight)).sum) = _
    rw [mergeLeft_filter]
    exact mergeLeft_sum (fun r₂ h₂ => by
      have : r₂.ticker = r.ticker := by
        simpa using (List.mem_filter.mp h₂).2
      rw [this, hnm]
      simp)

/-- C3 witness: the spec scenario — wave W2 references GOOG, absent from
the universe; the holdings keep a GOOG row with unset metadata and the
full weight. -/
theorem c3_left_join_preservation_witness :
    (⟨"W2", "GOOG", 2⟩ : WRow) ∈ filterWave [⟨"W2", "GOOG", 2⟩] "W2"
    ∧ univMatches [⟨Cell.str "AAPL", Cell.str "Tech", Cell.str "Apple", "AAPL"⟩] "GOOG" = []
    ∧ ∃ h ∈ waveHoldings [⟨Cell.str "AAPL", Cell.str "Tech", Cell.str "Apple", "AAPL"⟩]
          [⟨"W2", "GOOG", 2⟩] "W2",
        h.ticker = "GOOG" ∧ h.company = Cell.missing ∧ h.sector = Cell.missing
        ∧ h.waveweight
            = wSum ((filterWave [⟨"W2", "GOOG", 2⟩] "W2").filter
                (fun x => x.ticker == "GOOG")) :=
  ⟨by decide, by decide,
    c3_left_join_preservation _ _ _ ⟨"W2", "GOOG", 2⟩ (by decide) (by decide)⟩

/-- C7 (confirmed): when no weight row carries the selected wave name,
`build_wave_view` returns the two empty tables; the function is total, so
no error is raised. -/
theorem c7_empty_wave (u : List URow) (ws : List WRow) (n : String)
    (h : filterWave ws n = []) :
    build_wave_view u ws n = [PyTable.emptyDF, PyTable.emptyDF] := by
  unfold build_wave_view
  rw [if_pos h]

/-- C7 witness: a wave name absent from the weights table yields the two
empty tables. -/
theorem c7_empty_wave_witness :
    filterWave [⟨"W1", "AAPL", 3⟩] "W9" = []
    ∧ build_wave_view [⟨Cell.str "AAPL", Cell.str "Tech", Cell.str "Apple", "AAPL"⟩]
        [⟨"W1", "AAPL", 3⟩] "W9" = [PyTable.emptyDF, PyTable.emptyDF] :=
  ⟨by decide, c7_empty_wave _ _ _ (by decide)⟩

/-- C8 (confirmed): the sector allocation total equals the holdings
total: grouping the deduplicated rows by sector with the missing-sector
bucket kept (`dropna=False`) partitions the rows, so `total_weight` sums
to the `wave_weight` sum. (In the canonical model the sector field is
always present, because `load_universe` backfills it.) -/
theorem c8_sector_conservation (u : List URow) (ws : List WRow) (n : String) :
    sSum (waveSectorAlloc u ws n) = hSum (waveHoldings u ws n) := by
  unfold waveSectorAlloc waveHoldings hSum
  rw [sSum_sectorAlloc]
  have hperm :=
    ((sortBy_perm (fun a b : HRow => decide (b.waveweight ≤ a.waveweight))
      (dedupByTicker (mergeLeft u (filterWave ws n)))).map
        (fun x : HRow => x.waveweight)).sum_eq
  rw [hperm]
  rfl

/-- C8 witness: concrete instance of sector-grouping conservation on the
spec scenario. -/
theorem c8_sector_conservation_witness :
    sSum (waveSectorAlloc [⟨Cell.str "AAPL", Cell.str "Tech", Cell.str "Apple", "AAPL"⟩]
        [⟨"W1", "AAPL", 3⟩, ⟨"W1", "GOOG", 1⟩] "W1")
      = hSum (waveHoldings [⟨Cell.str "AAPL", Cell.str "Tech", Cell.str "Apple", "AAPL"⟩]
        [⟨"W1", "AAPL", 3⟩, ⟨"W1", "GOOG", 1⟩] "W1") :=
  c8_sector_conservation _ _ _

/-- C10 (confirmed): the arity of the `build_wave_view` result depends on
the wave: an empty wave yields the pair of two empty tables (length 2),
a non-empty wave yields the triple of holdings, the first ten holdings
rows, and the sector allocation (length 3). -/
theorem c10_result_shape (u : List URow) (ws : List WRow) (n : String) :
    (filterWave ws n = [] →
      build_wave_view u ws n = [PyTable.emptyDF, PyTable.emptyDF]
      ∧ (build_wave_view u ws n).length = 2)
    ∧ (filterWave ws n ≠ [] →
      build_wave_view u ws n
        = [PyTable.hold (waveHoldings u ws n),
           PyTable.hold ((waveHoldings u ws n).take 10),
           PyTable.sect (waveSectorAlloc u ws n)]
      ∧ (build_wave_view u ws n).length = 3) := by
  constructor <;> intro h <;> unfold build_wave_view <;> simp [h]

/-- C10 witness: a one-row wave produces the length-3 result whose second
component is the ten-row prefix of the first. -/
theorem c10_result_shape_witness :
    filterWave [⟨"W1", "AAPL", 3⟩] "W1" ≠ []
    ∧ build_wave_view [] [⟨"W1", "AAPL", 3⟩] "W1"
        = [PyTable.hold (waveHoldings [] [⟨"W1", "AAPL", 3⟩] "W1"),
           PyTable.hold ((waveHoldings [] [⟨"W1", "AAPL", 3⟩] "W1").take 10),
           PyTable.sect (waveSectorAlloc [] [⟨"W1", "AAPL", 3⟩] "W1")]
    ∧ (build_wave_view [] [⟨"W1", "AAPL", 3⟩] "W1").length = 3 :=
  ⟨by decide, (c10_result_shape _ _ _).2 (by decide)⟩

/-- C4 (code bug evaluation): when the raw universe table has no
sector-alias column at all, `load_universe` backfills an all-missing
`Sector` column, so the `if "Sector" in dedup.columns` guard in
`build_wave_view` still holds and the sector allocation comes out as a
ONE-ROW null bucket carrying the full weight — not the empty table the
claim (and the unreachable `No sector information available` branch of
`main`) expects. -/
theorem c4_missing_sector_null_bucket :
    load_universe ⟨["Ticker", "Company"], [[Cell.str "AAPL", Cell.str "Apple"]]⟩
      = Except.ok [⟨Cell.str "AAPL", Cell.missing, Cell.str "Apple", "AAPL"⟩]
    ∧ load_weights ⟨["Wave", "Ticker", "Weight"],
        [[Cell.str "W2", Cell.str "AAPL", Cell.num 5]]⟩
      = Except.ok [⟨"W2", "AAPL", 5⟩]
    ∧ build_wave_view [⟨Cell.str "AAPL", Cell.missing, Cell.str "Apple", "AAPL"⟩]
        [⟨"W2", "AAPL", 5⟩] "W2"
      = [PyTable.hold [⟨"AAPL", Cell.str "Apple", Cell.missing, 5⟩],
         PyTable.hold [⟨"AAPL", Cell.str "Apple", Cell.missing, 5⟩],
         PyTable.sect [⟨Cell.missing, 5⟩]]
    ∧ (waveSectorAlloc [⟨Cell.str "AAPL", Cell.missing, Cell.str "Apple", "AAPL"⟩]
        [⟨"W2", "AAPL", 5⟩] "W2").length = 1 := by
  refine ⟨by decide, by decide, by decide, by decide⟩

/-- C5 counterexample: the claim says no output row may stem from a row
whose wave or ticker was missing; but `load_weights` stringifies missing
values before trimming, so the sole input row — whose `Wave` cell is
missing — is KEPT, with the literal wave string "nan". -/
theorem c5_counterexample :
    load_weights ⟨["Wave", "Ticker", "Weight"],
        [[Cell.missing, Cell.str " aapl ", Cell.num 5]]⟩
      = Except.ok [⟨"nan", "AAPL", 5⟩] := by
  decide

/-- C5 (amended): on a weights table with the three required columns, a
row is dropped exactly when its coerced weight (unparseable or missing
values coerce to 0 via `fillna(0.0)`) is not strictly positive; every
kept row is the normalization of an input row (wave stringified and
trimmed, ticker stringified, trimmed and uppercased), and every input row
with positive coerced weight is kept. Rows with missing wave or ticker
are NOT dropped: the missing value becomes the string "nan" / "NAN". -/
theorem c5_row_cleaning (t : RawTable) (out : List WRow)
    (h : load_weights t = Except.ok out) :
    (∀ r ∈ out, 0 < r.weight)
    ∧ (∀ r ∈ out, ∃ row ∈ t.rows, r = coerceWRow (t.cols.map pyStrip) row)
    ∧ (∀ row ∈ t.rows, 0 < (coerceWRow (t.cols.map pyStrip) row).weight →
        coerceWRow (t.cols.map pyStrip) row ∈ out) := by
  unfold load_weights at h
  by_cases hm : missingCols t = []
  · rw [if_pos hm] at h
    have hout : out = (t.rows.map (coerceWRow (t.cols.map pyStrip))).filter
        (fun r => decide (0 < r.weight)) := (Except.ok.inj h).symm
    subst hout
    refine ⟨?_, ?_, ?_⟩
    · intro r hr
      have := (List.mem_filter.mp hr).2
      simpa using this
    · intro r hr
      rcases List.mem_map.mp (List.mem_filter.mp hr).1 with ⟨row, hrow, rfl⟩
      exact ⟨row, hrow, rfl⟩
    · intro row hrow hw
      exact List.mem_filter.mpr ⟨List.mem_map_of_mem _ hrow, by simpa using hw⟩
  · rw [if_neg hm] at h
    cases h

/-- C5 witness: the spec scenario table — a parsable " 2.5 " row is kept
normalized, while the rows with weight "abc" (unparseable), 0 and missing
are dropped. -/
theorem c5_row_cleaning_witness :
    load_weights ⟨["Wave", "Ticker", "Weight"],
        [[Cell.str "W1", Cell.str " aapl ", Cell.str " 2.5 "],
         [Cell.str "W1", Cell.str "MSFT", Cell.str "abc"],
         [Cell.str "W1", Cell.str "IBM", Cell.num 0],
         [Cell.str "W1", Cell.str "ORCL", Cell.missing]]⟩
      = Except.ok [⟨"W1", "AAPL", 5/2⟩]
    ∧ ((∀ r ∈ [(⟨"W1", "AAPL", 5/2⟩ : WRow)], 0 < r.weight)
      ∧ (∀ r ∈ [(⟨"W1", "AAPL", 5/2⟩ : WRow)],
          ∃ row ∈ (⟨["Wave", "Ticker", "Weight"],
            [[Cell.str "W1", Cell.str " aapl ", Cell.str " 2.5 "],
             [Cell.str "W1", Cell.str "MSFT", Cell.str "abc"],
             [Cell.str "W1", Cell.str "IBM", Cell.num 0],
             [Cell.str "W1", Cell.str "ORCL", Cell.missing]]⟩ : RawTable).rows,
            r = coerceWRow ((⟨["Wave", "Ticker", "Weight"],
              [[Cell.str "W1", Cell.str " aapl ", Cell.str " 2.5 "],
               [Cell.str "W1", Cell.str "MSFT", Cell.str "abc"],
               [Cell.str "W1", Cell.str "IBM", Cell.num 0],
               [Cell.str "W1", Cell.str "ORCL", Cell.missing]]⟩ : RawTable).cols.map pyStrip) row)
      ∧ (∀ row ∈ (⟨["Wave", "Ticker", "Weight"],
            [[Cell.str "W1", Cell.str " aapl ", Cell.str " 2.5 "],
             [Cell.str "W1", Cell.str "MSFT", Cell.str "abc"],
             [Cell.str "W1", Cell.str "IBM", Cell.num 0],
             [Cell.str "W1", Cell.str "ORCL", Cell.missing]]⟩ : RawTable).rows,
          0 < (coerceWRow ((⟨["Wave", "Ticker", "Weight"],
            [[Cell.str "W1", Cell.str " aapl ", Cell.str " 2.5 "],
             [Cell.str "W1", Cell.str "MSFT", Cell.str "abc"],
             [Cell.str "W1", Cell.str "IBM", Cell.num 0],
             [Cell.str "W1", Cell.str "ORCL", Cell.missing]]⟩ : RawTable).cols.map pyStrip) row).weight →
            coerceWRow ((⟨["Wave", "Ticker", "Weight"],
              [[Cell.str "W1", Cell.str " aapl ", Cell.str " 2.5 "],
               [Cell.str "W1", Cell.str "MSFT", Cell.str "abc"],
               [Cell.str "W1", Cell.str "IBM", Cell.num 0],
               [Cell.str "W1", Cell.str "ORCL", Cell.missing]]⟩ : RawTable).cols.map pyStrip) row
              ∈ [(⟨"W1", "AAPL", 5/2⟩ : WRow)])) :=
  ⟨by decide, c5_row_cleaning _ _ (by decide)⟩

/-- C6 counterexample: the claim says alias matching is case-insensitive,
so a raw universe whose only column is the lowercase name "symbol" should
resolve the ticker field (the spec-modelled resolver does); the code
matches exactly against ["Ticker", "Symbol", "ticker"] and instead fails
with the schema error. -/
theorem c6_counterexample :
    findAliasCaseInsensitive ["ticker", "symbol"] ["symbol"] = some "symbol"
    ∧ load_universe ⟨["symbol"], []⟩
        = Except.error ⟨["Ticker", "Symbol", "ticker"], ["symbol"]⟩ := by
  refine ⟨by decide, by decide⟩

/-- C6 (amended): alias resolution is EXACT (case-sensitive) matching
against the ordered candidate lists ["Ticker", "Symbol", "ticker"],
["Sector", "GICS Sector", "Morningstar Sector", "Industry", "sector"]
and ["Company", "Name", "Security Name", "Long Name", "company"]: the
first candidate present among the raw columns wins (every earlier
candidate is absent), and is normalized into the canonical field of the
output rows; `load_universe` succeeds exactly when some ticker candidate
is present. -/
theorem c6_alias_resolution (t : RawTable) :
    ((∃ out, load_universe t = Except.ok out) ↔ ∃ c ∈ ticker_cols, c ∈ t.cols)
    ∧ (∀ c, findAlias ticker_cols t.cols = some c →
        ∃ l₁ l₂, ticker_cols = l₁ ++ c :: l₂ ∧ c ∈ t.cols ∧ ∀ x ∈ l₁, x ∉ t.cols)
    ∧ (∀ c, findAlias sector_candidates t.cols = some c →
        ∃ l₁ l₂, sector_candidates = l₁ ++ c :: l₂ ∧ c ∈ t.cols ∧ ∀ x ∈ l₁, x ∉ t.cols)
    ∧ (∀ c, findAlias name_candidates t.cols = some c →
        ∃ l₁ l₂, name_candidates = l₁ ++ c :: l₂ ∧ c ∈ t.cols ∧ ∀ x ∈ l₁, x ∉ t.cols)
    ∧ (∀ c, findAlias ticker_cols t.cols = some c →
        load_universe t = Except.ok (t.rows.map (univRow t.cols c
          (findAlias sector_candidates t.cols)
          (findAlias name_candidates t.cols)))) := by
  refine ⟨?_, fun c h => findAlias_split h, fun c h => findAlias_split h,
    fun c h => findAlias_split h, fun c h => ?_⟩
  · constructor
    · rintro ⟨out, hout⟩
      unfold load_universe at hout
      cases hfa : findAlias ticker_cols t.cols with
      | none => rw [hfa] at hout; cases hout
      | some c =>
          rcases findAlias_split hfa with ⟨l₁, l₂, heq, hc, _⟩
          exact ⟨c, by rw [heq]; simp, hc⟩
    · rintro ⟨c, hc, hcol⟩
      cases hfa : findAlias ticker_cols t.cols with
      | none => exact absurd hcol (findAlias_none hfa c hc)
      | some c₂ =>
          exact ⟨t.rows.map (univRow t.cols c₂
              (findAlias sector_candidates t.cols)
              (findAlias name_candidates t.cols)),
            by unfold load_universe; rw [hfa]⟩
  · unfold load_universe
    rw [h]

/-- C6 witness: a raw table with columns ["Symbol", "Industry"] resolves
the ticker to "Symbol" (the earlier candidate "Ticker" being absent) and
load_universe succeeds on it. -/
theorem c6_alias_resolution_witness :
    ((∃ out, load_universe ⟨["Symbol", "Industry"], []⟩ = Except.ok out)
      ↔ ∃ c ∈ ticker_cols, c ∈ (⟨["Symbol", "Industry"], []⟩ : RawTable).cols)
    ∧ ∃ l₁ l₂, ticker_cols = l₁ ++ "Symbol" :: l₂
        ∧ "Symbol" ∈ (⟨["Symbol", "Industry"], []⟩ : RawTable).cols
        ∧ ∀ x ∈ l₁, x ∉ (⟨["Symbol", "Industry"], []⟩ : RawTable).cols :=
  ⟨(c6_alias_resolution _).1, (c6_alias_resolution _).2.1 "Symbol" (by decide)⟩

/-- C9 (confirmed): `load_weights` fails exactly when one of the required
columns `Wave`, `Ticker`, `Weight` is absent after trimming the header
names, and the error carries exactly the required list, the missing
columns, and the columns actually present; on failure no table is
produced (the result is the error alone). -/
theorem c9_schema_validation (t : RawTable) :
    ((∃ e, load_weights t = Except.error e) ↔ missingCols t ≠ [])
    ∧ ∀ e, load_weights t = Except.error e →
        e.required = requiredCols ∧ e.missing = missingCols t
        ∧ e.found = t.cols.map pyStrip := by
  by_cases h : missingCols t = []
  · constructor
    · constructor
      · rintro ⟨e, he⟩
        unfold load_weights at he
        rw [if_pos h] at he
        cases he
      · intro hne
        exact absurd h hne
    · intro e he
      unfold load_weights at he
      rw [if_pos h] at he
      cases he
  · constructor
    · constructor
      · intro _
        exact h
      · intro _
        refine ⟨⟨requiredCols, missingCols t, t.cols.map pyStrip⟩, ?_⟩
        unfold load_weights
        rw [if_neg h]
    · intro e he
      unfold load_weights at he
      rw [if_neg h] at he
      rcases Except.error.inj he with rfl
      exact ⟨rfl, rfl, rfl⟩

/-- C9 witness: headers ["Wave ", " Ticker"] trim to ["Wave", "Ticker"];
the missing column "Weight" is reported together with the trimmed columns
found. -/
theorem c9_schema_validation_witness :
    load_weights ⟨["Wave ", " Ticker"], []⟩
      = Except.error ⟨["Wave", "Ticker", "Weight"], ["Weight"], ["Wave", "Ticker"]⟩
    ∧ ((⟨["Wave", "Ticker", "Weight"], ["Weight"], ["Wave", "Ticker"]⟩ : WeightsError).required
          = requiredCols
      ∧ (⟨["Wave", "Ticker", "Weight"], ["Weight"], ["Wave", "Ticker"]⟩ : WeightsError).missing
          = missingCols ⟨["Wave ", " Ticker"], []⟩
      ∧ (⟨["Wave", "Ticker", "Weight"], ["Weight"], ["Wave", "Ticker"]⟩ : WeightsError).found
          = (⟨["Wave ", " Ticker"], []⟩ : RawTable).cols.map pyStrip) :=
  ⟨by decide, (c9_schema_validation _).2 _ (by decide)⟩

end MultiWave
